import Mathlib

/-!
# Verification of `topoSort` (CH5/toposort/toposort.go)

A shallow embedding of the depth-first topological sort of
`The-Go-programming-language/src/CH5/toposort/toposort.go`, together with the
index/name printing loop of its `main`.

* A Go `map[string][]string` is an association list; `m[item]` is `prereqsOf`,
  which yields the empty list for a missing key exactly as indexing a Go map
  yields the nil slice.
* The closure variables `seen` and `order` captured by `visitAll` are the two
  fields of `VisitState`, threaded explicitly through the traversal.
* The recursion of `visitAll` is bounded by a call-depth budget; the budget is
  shown never to be exhausted (`visitAll_total`) and the result is shown not
  to depend on it (`visitAll_mono`).
* `sort.Strings` is modelled by insertion sort for the lexicographic order on
  the characters of the strings. Go compares the UTF-8 bytes, which orders
  valid UTF-8 strings exactly as their code points do.
* The `fmt.Println` tracing calls inside `topoSort` do not influence the
  returned slice and are left out.
-/

namespace Toposort

/-! ## Data model -/

/-- The Go type `map[string][]string`, as an association list. -/
abbrev Graph := List (String × List String)

/-- The keys of the map, in the order of the association list. -/
def keysOf (m : Graph) : List String := m.map Prod.fst

/-- The Go expression `m[item]`: the stored slice, or nil for a missing key. -/
def prereqsOf (m : Graph) (item : String) : List String :=
  match m.lookup item with
  | some ps => ps
  | none => []

/-- The variables `seen` and `order` of `topoSort`, captured by `visitAll`.
`seen` lists the keys mapped to `true`. -/
structure VisitState where
  seen : List String
  order : List String
deriving DecidableEq

/-- The statement `for _, item := range items { body }`, where the body may
fail to return within the depth budget. -/
def forRange (body : String → VisitState → Option VisitState) :
    List String → VisitState → Option VisitState
  | [], st => some st
  | item :: rest, st =>
    match body item st with
    | none => none
    | some st1 => forRange body rest st1

/-- The closure `visitAll` of `topoSort`. The first argument bounds the depth
of nested calls; `none` means the budget was exhausted. -/
def visitAll (m : Graph) : Nat → List String → VisitState → Option VisitState
  | 0, _, _ => none
  | depth + 1, items, st =>
    forRange (fun item s =>
      if item ∈ s.seen then some s
      else
        match visitAll m depth (prereqsOf m item) { s with seen := item :: s.seen } with
        | none => none
        | some s1 => some { s1 with order := s1.order ++ [item] }) items st

/-- Lexicographic comparison of two strings, character by character. -/
def strLE (a b : String) : Prop := a.toList ≤ b.toList

instance strLE_decidable : DecidableRel strLE :=
  fun a b => inferInstanceAs (Decidable (a.toList ≤ b.toList))

/-- The library call `sort.Strings(keys)`. -/
def sortStrings (keys : List String) : List String := List.insertionSort strLE keys

/-- The loop `for key := range m { keys = append(keys, key) }`, run over the
keys in the order `enum` in which the map happens to enumerate them. -/
def collectKeys (enum : List String) : List String :=
  enum.foldl (fun keys key => keys ++ [key]) []

/-- Every string stored in the map's slices, with repetitions. -/
def listed (m : Graph) : List String := (m.map Prod.snd).flatten

/-- A call-depth budget that suffices for `visitAll keys`: one more than the
number of strings occurring as a key or inside a slice. -/
def depthBudget (m : Graph) (keys : List String) : Nat :=
  keys.length + (listed m).length + 1

/-- The initial values `var order []string` and `seen := make(map[string]bool)`. -/
def initState : VisitState := ⟨[], []⟩

/-- The body of `topoSort(m)` when the map enumerates its keys in the order
`enum`. -/
def topoSortEnum (m : Graph) (enum : List String) : Option (List String) :=
  let keys := sortStrings (collectKeys enum)
  (visitAll m (depthBudget m keys) keys initState).map VisitState.order

/-- The function `topoSort(m)`. -/
def topoSort (m : Graph) : Option (List String) := topoSortEnum m (keysOf m)

/-- The call `fmt.Printf("%d:\t%s\n", i+1, course)`, as the text written. -/
def printfLine (i : Nat) (course : String) : String :=
  toString (i + 1) ++ ":\t" ++ course ++ "\n"

/-- The loop `for i, course := range order { fmt.Printf(...) }` of `main`,
from index `i` on, appending the text of each call to `out`. -/
def emitFrom : Nat → List String → List String → List String
  | _, [], out => out
  | i, course :: rest, out => emitFrom (i + 1) rest (out ++ [printfLine i course])

/-- The texts written by the printing loop of `main` for a given order. -/
def emit (order : List String) : List String := emitFrom 0 order []

/-- The package variable `prereqs`. -/
def prereqs : Graph :=
  [ ("algorithms", ["data structures"]),
    ("calculus", ["linear algebra"]),
    ("compiler", ["data structures", "formal languages", "computer organization"]),
    ("data structures", ["discrete math"]),
    ("database", ["data structures"]),
    ("discrete math", ["intro to programming"]),
    ("formal languages", ["discrete math"]),
    ("network", ["operating systems"]),
    ("operating systems", ["data structures", "computer organization"]),
    ("programming languages", ["data structures", "computer organization"]) ]

/-! ## Graph vocabulary -/

/-- The relation `p ∈ m[n]`: `p` is a direct prerequisite of `n`. -/
def Edge (m : Graph) (n p : String) : Prop := p ∈ prereqsOf m n

/-- The relation "reachable through zero or more prerequisite edges". -/
def Reach (m : Graph) : String → String → Prop := Relation.ReflTransGen (Edge m)

/-- No node reaches itself through one or more prerequisite edges. -/
def Acyclic (m : Graph) : Prop := ∀ n, ¬ Relation.TransGen (Edge m) n n

/-- Reachable from some key of the map. -/
def ReachFromKeys (m : Graph) (x : String) : Prop := ∃ k ∈ keysOf m, Reach m k x

/-- The node `p` occurs in `order` at a position strictly smaller than `j`. -/
def OccursBefore (order : List String) (p : String) (j : Nat) : Prop :=
  ∃ i, i < j ∧ order[i]? = some p

/-- The order respects every edge: each prerequisite of the node at any
position occurs at a strictly smaller position. -/
def RespectsEdges (m : Graph) (order : List String) : Prop :=
  ∀ j n, order[j]? = some n → ∀ p ∈ prereqsOf m n, OccursBefore order p j

/-- Some node reachable from the keys reaches itself through one or more
prerequisite edges. -/
def HasReachableCycle (m : Graph) : Prop :=
  ∃ n, ReachFromKeys m n ∧ Relation.TransGen (Edge m) n n

/-- The two-node cycle `{"a": ["b"], "b": ["a"]}`. -/
def cycleAB : Graph := [("a", ["b"]), ("b", ["a"])]

/-- The four-chain scenario graph with a separate `calculus` branch. -/
def scenario : Graph :=
  [ ("algorithms", ["data structures"]),
    ("data structures", ["discrete math"]),
    ("discrete math", ["intro to programming"]),
    ("calculus", ["linear algebra"]) ]

/-- What one call `visitAll(items)` does to the state: it appends the list
`new` of freshly visited nodes to `order` and marks exactly them as seen. -/
structure VisitSpec (m : Graph) (items : List String) (st st' : VisitState)
    (new : List String) : Prop where
  order_eq : st'.order = st.order ++ new
  seen_iff : ∀ x, x ∈ st'.seen ↔ x ∈ st.seen ∨ x ∈ new
  nodup : new.Nodup
  fresh : ∀ x ∈ new, x ∉ st.seen
  items_seen : ∀ x ∈ items, x ∈ st'.seen
  reach : ∀ x ∈ new, ∃ i ∈ items, Reach m i x
  closed : ∀ x ∈ new, ∀ p ∈ prereqsOf m x, p ∈ st'.seen
  back : new.Pairwise (fun x p => p ∈ prereqsOf m x → Reach m p x)

/-- The number of candidate nodes of `nodes` not yet marked seen. -/
def unseenCount (nodes seen : List String) : Nat :=
  nodes.countP (fun x => decide (x ∉ seen))

/-! ## The order on strings and `sortStrings` -/

theorem strLE_total (a b : String) : strLE a b ∨ strLE b a :=
  le_total a.toList b.toList

theorem strLE_trans {a b c : String} (h1 : strLE a b) (h2 : strLE b c) : strLE a c :=
  le_trans (α := List Char) h1 h2

theorem strLE_antisymm {a b : String} (h1 : strLE a b) (h2 : strLE b a) : a = b := by
  have h : a.toList = b.toList := le_antisymm h1 h2
  cases a
  cases b
  simp only [String.toList] at h
  rw [h]

theorem sortStrings_perm (keys : List String) : (sortStrings keys).Perm keys :=
  List.perm_insertionSort strLE keys

theorem sortStrings_sorted (keys : List String) : List.Sorted strLE (sortStrings keys) :=
  @List.sorted_insertionSort String strLE _ ⟨strLE_total⟩ ⟨fun _ _ _ => strLE_trans⟩ keys

theorem mem_sortStrings {keys : List String} {x : String} :
    x ∈ sortStrings keys ↔ x ∈ keys :=
  (sortStrings_perm keys).mem_iff

theorem sortStrings_eq_of_perm {e1 e2 : List String} (h : e1.Perm e2) :
    sortStrings e1 = sortStrings e2 :=
  @List.eq_of_perm_of_sorted String strLE ⟨fun _ _ => strLE_antisymm⟩ _ _
    (((sortStrings_perm e1).trans h).trans (sortStrings_perm e2).symm)
    (sortStrings_sorted e1) (sortStrings_sorted e2)

theorem collectKeys_from (enum acc : List String) :
    enum.foldl (fun keys key => keys ++ [key]) acc = acc ++ enum := by
  induction enum generalizing acc with
  | nil => simp
  | cons k rest ih => simp [ih]

theorem collectKeys_eq (enum : List String) : collectKeys enum = enum := by
  simp [collectKeys, collectKeys_from]

/-- The least key comes first after sorting. -/
theorem sortStrings_head {keys : List String} {k : String} (hk : k ∈ keys)
    (hmin : ∀ k' ∈ keys, strLE k k') : ∃ rest, sortStrings keys = k :: rest := by
  have hs := sortStrings_sorted keys
  have hmem : k ∈ sortStrings keys := mem_sortStrings.mpr hk
  cases hsk : sortStrings keys with
  | nil => rw [hsk] at hmem; cases hmem
  | cons h t =>
    rw [hsk] at hs hmem
    have hh : h ∈ keys := mem_sortStrings.mp (by rw [hsk]; exact List.mem_cons_self _ _)
    have h1 : strLE k h := hmin h hh
    have h2 : strLE h k := by
      rcases List.mem_cons.mp hmem with rfl | ht
      · exact h1
      · exact List.rel_of_sorted_cons hs k ht
    exact ⟨t, by rw [strLE_antisymm h1 h2]⟩

/-! ## Unfolding `visitAll` -/

theorem visitAll_nil (m : Graph) (d : Nat) (st : VisitState) :
    visitAll m (d + 1) [] st = some st := rfl

theorem visitAll_cons_seen (m : Graph) (d : Nat) (item : String) (rest : List String)
    (st : VisitState) (h : item ∈ st.seen) :
    visitAll m (d + 1) (item :: rest) st = visitAll m (d + 1) rest st := by
  simp [visitAll, forRange, h]

theorem visitAll_cons_fresh (m : Graph) (d : Nat) (item : String) (rest : List String)
    (st : VisitState) (h : item ∉ st.seen) :
    visitAll m (d + 1) (item :: rest) st =
      match visitAll m d (prereqsOf m item) { st with seen := item :: st.seen } with
      | none => none
      | some s1 => visitAll m (d + 1) rest { s1 with order := s1.order ++ [item] } := by
  simp only [visitAll, forRange, h, if_false]
  cases visitAll m d (prereqsOf m item) { st with seen := item :: st.seen } <;> rfl

/-! ## What a call of `visitAll` establishes -/

theorem visitSpec_nil (m : Graph) (st : VisitState) : VisitSpec m [] st st [] where
  order_eq := by simp
  seen_iff := by simp
  nodup := List.nodup_nil
  fresh := by simp
  items_seen := by simp
  reach := by simp
  closed := by simp
  back := List.Pairwise.nil

theorem visitSpec_cons_seen {m : Graph} {item : String} {rest : List String}
    {st st' : VisitState} {new : List String} (h : item ∈ st.seen)
    (hs : VisitSpec m rest st st' new) : VisitSpec m (item :: rest) st st' new where
  order_eq := hs.order_eq
  seen_iff := hs.seen_iff
  nodup := hs.nodup
  fresh := hs.fresh
  items_seen := by
    intro x hx
    rcases List.mem_cons.mp hx with rfl | hx
    · exact (hs.seen_iff _).mpr (Or.inl h)
    · exact hs.items_seen x hx
  reach := by
    intro x hx
    obtain ⟨i, hi, hr⟩ := hs.reach x hx
    exact ⟨i, List.mem_cons_of_mem _ hi, hr⟩
  closed := hs.closed
  back := hs.back

theorem visitSpec_cons_fresh {m : Graph} {item : String} {rest : List String}
    {st s1 st' : VisitState} {new1 new2 : List String} (h : item ∉ st.seen)
    (h1 : VisitSpec m (prereqsOf m item) { st with seen := item :: st.seen } s1 new1)
    (h2 : VisitSpec m rest { s1 with order := s1.order ++ [item] } st' new2) :
    VisitSpec m (item :: rest) st st' (new1 ++ item :: new2) := by
  have hitem1 : item ∈ s1.seen := (h1.seen_iff item).mpr (Or.inl (List.mem_cons_self _ _))
  have hnew1 : ∀ x ∈ new1, x ∈ s1.seen := fun x hx => (h1.seen_iff x).mpr (Or.inr hx)
  have hmono : ∀ x, x ∈ s1.seen → x ∈ st'.seen := fun x hx => (h2.seen_iff x).mpr (Or.inl hx)
  have hfresh2 : ∀ x ∈ new2, x ∉ s1.seen := h2.fresh
  refine ⟨?_, ?_, ?_, ?_, ?_, ?_, ?_, ?_⟩
  · rw [h2.order_eq, h1.order_eq]
    simp
  · intro x
    rw [h2.seen_iff, h1.seen_iff]
    simp only [List.mem_cons, List.mem_append]
    tauto
  · rw [List.nodup_append]
    refine ⟨h1.nodup, ?_, ?_⟩
    · rw [List.nodup_cons]
      exact ⟨fun hx => hfresh2 item hx hitem1, h2.nodup⟩
    · intro x hx1 hx2
      rcases List.mem_cons.mp hx2 with rfl | hx2
      · exact h1.fresh x hx1 (List.mem_cons_self _ _)
      · exact hfresh2 x hx2 (hnew1 x hx1)
  · intro x hx hxs
    rcases List.mem_append.mp hx with hx | hx
    · exact h1.fresh x hx (List.mem_cons_of_mem _ hxs)
    · rcases List.mem_cons.mp hx with rfl | hx
      · exact h hxs
      · exact hfresh2 x hx ((h1.seen_iff x).mpr (Or.inl (List.mem_cons_of_mem _ hxs)))
  · intro x hx
    rcases List.mem_cons.mp hx with rfl | hx
    · exact hmono _ hitem1
    · exact h2.items_seen x hx
  · intro x hx
    rcases List.mem_append.mp hx with hx | hx
    · obtain ⟨i, hi, hr⟩ := h1.reach x hx
      exact ⟨item, List.mem_cons_self _ _, Relation.ReflTransGen.head hi hr⟩
    · rcases List.mem_cons.mp hx with rfl | hx
      · exact ⟨x, List.mem_cons_self _ _, Relation.ReflTransGen.refl⟩
      · obtain ⟨i, hi, hr⟩ := h2.reach x hx
        exact ⟨i, List.mem_cons_of_mem _ hi, hr⟩
  · intro x hx p hp
    rcases List.mem_append.mp hx with hx | hx
    · exact hmono p (h1.closed x hx p hp)
    · rcases List.mem_cons.mp hx with rfl | hx
      · exact hmono p (h1.items_seen p hp)
      · exact h2.closed x hx p hp
  · rw [List.pairwise_append]
    refine ⟨h1.back, ?_, ?_⟩
    · rw [List.pairwise_cons]
      refine ⟨?_, h2.back⟩
      intro y hy hp
      exact absurd (h1.items_seen y hp) (hfresh2 y hy)
    · intro x hx y hy hp
      rcases List.mem_cons.mp hy with rfl | hy
      · obtain ⟨i, hi, hr⟩ := h1.reach x hx
        exact Relation.ReflTransGen.head hi hr
      · exact absurd (h1.closed x hx y hp) (hfresh2 y hy)

/-- Every completed call of `visitAll` meets `VisitSpec`. -/
theorem visitAll_spec (m : Graph) : ∀ (d : Nat) (items : List String) (st st' : VisitState),
    visitAll m d items st = some st' → ∃ new, VisitSpec m items st st' new := by
  intro d
  induction d with
  | zero => intro items st st' h; simp [visitAll] at h
  | succ d ihd =>
    intro items
    induction items with
    | nil =>
      intro st st' h
      rw [visitAll_nil] at h
      cases h
      exact ⟨[], visitSpec_nil m st⟩
    | cons item rest ihr =>
      intro st st' h
      by_cases hs : item ∈ st.seen
      · rw [visitAll_cons_seen m d item rest st hs] at h
        obtain ⟨new, hnew⟩ := ihr st st' h
        exact ⟨new, visitSpec_cons_seen hs hnew⟩
      · rw [visitAll_cons_fresh m d item rest st hs] at h
        cases hv : visitAll m d (prereqsOf m item) { st with seen := item :: st.seen } with
        | none => rw [hv] at h; cases h
        | some s1 =>
          rw [hv] at h
          obtain ⟨new1, h1⟩ := ihd _ _ _ hv
          obtain ⟨new2, h2⟩ := ihr _ _ h
          exact ⟨new1 ++ item :: new2, visitSpec_cons_fresh hs h1 h2⟩

/-! ## Termination: the depth budget is never exhausted -/

theorem unseenCount_mono (nodes : List String) {s1 s2 : List String}
    (h : ∀ x ∈ s1, x ∈ s2) : unseenCount nodes s2 ≤ unseenCount nodes s1 := by
  apply List.countP_mono_left
  intro x _ hx
  simp only [decide_eq_true_eq] at hx ⊢
  exact fun hx1 => hx (h x hx1)

theorem unseenCount_lt {nodes : List String} {item : String} {seen : List String}
    (hmem : item ∈ nodes) (hfresh : item ∉ seen) :
    unseenCount nodes (item :: seen) < unseenCount nodes seen := by
  induction nodes with
  | nil => cases hmem
  | cons y ys ih =>
    have hle : unseenCount ys (item :: seen) ≤ unseenCount ys seen :=
      unseenCount_mono ys (fun x hx => List.mem_cons_of_mem _ hx)
    unfold unseenCount at ih hle ⊢
    by_cases hy : y = item
    · subst hy
      rw [List.countP_cons_of_neg, List.countP_cons_of_pos]
      · omega
      · simpa using hfresh
      · simp
    · have hys : item ∈ ys := by
        rcases List.mem_cons.mp hmem with h | h
        · exact absurd h.symm hy
        · exact h
      have ih1 := ih hys
      by_cases hyseen : y ∈ seen
      · rw [List.countP_cons_of_neg, List.countP_cons_of_neg]
        · exact ih1
        · simpa using hyseen
        · simp [hyseen]
      · rw [List.countP_cons_of_pos, List.countP_cons_of_pos]
        · omega
        · simpa using hyseen
        · simp [hy, hyseen]

theorem unseenCount_le_length (nodes seen : List String) :
    unseenCount nodes seen ≤ nodes.length :=
  List.countP_le_length _

theorem mem_of_lookup {m : Graph} {x : String} {ps : List String}
    (h : m.lookup x = some ps) : (x, ps) ∈ m := by
  induction m with
  | nil => simp at h
  | cons e rest ih =>
    obtain ⟨k, v⟩ := e
    by_cases hk : x = k
    · subst hk
      simp at h
      simp [h]
    · have hb : (x == k) = false := by simpa using hk
      rw [List.lookup_cons, hb] at h
      exact List.mem_cons_of_mem _ (ih h)

theorem edge_mem {m : Graph} {n p : String} (h : p ∈ prereqsOf m n) :
    ∃ ps, (n, ps) ∈ m ∧ p ∈ ps := by
  unfold prereqsOf at h
  cases hl : m.lookup n with
  | none => rw [hl] at h; cases h
  | some ps =>
    rw [hl] at h
    exact ⟨ps, mem_of_lookup hl, h⟩

theorem prereqsOf_listed {m : Graph} {x p : String} (h : p ∈ prereqsOf m x) :
    p ∈ listed m := by
  obtain ⟨ps, hmem, hp⟩ := edge_mem h
  exact List.mem_flatten.mpr ⟨ps, List.mem_map.mpr ⟨(x, ps), hmem, rfl⟩, hp⟩

/-- With a depth budget above the number of unseen candidate nodes, the call
returns. -/
theorem visitAll_total (m : Graph) (nodes : List String)
    (hclosed : ∀ x p, p ∈ prereqsOf m x → p ∈ nodes) :
    ∀ (d : Nat) (items : List String) (st : VisitState),
      (∀ x ∈ items, x ∈ nodes) → unseenCount nodes st.seen < d →
      ∃ st', visitAll m d items st = some st' := by
  intro d
  induction d with
  | zero => intro items st _ h; omega
  | succ d ihd =>
    intro items
    induction items with
    | nil => intro st _ _; exact ⟨st, visitAll_nil m d st⟩
    | cons item rest ihr =>
      intro st hitems hd
      have hrest : ∀ x ∈ rest, x ∈ nodes := fun x hx => hitems x (List.mem_cons_of_mem _ hx)
      by_cases hs : item ∈ st.seen
      · rw [visitAll_cons_seen m d item rest st hs]
        exact ihr st hrest hd
      · rw [visitAll_cons_fresh m d item rest st hs]
        have hlt := unseenCount_lt (hitems item (List.mem_cons_self _ _)) hs
        obtain ⟨s1, hs1⟩ := ihd (prereqsOf m item) { st with seen := item :: st.seen }
          (fun x hx => hclosed item x hx) (by simp only; omega)
        rw [hs1]
        obtain ⟨new1, hspec⟩ := visitAll_spec m d _ _ s1 hs1
        apply ihr _ hrest
        have hsub : ∀ x ∈ st.seen, x ∈ s1.seen := fun x hx =>
          (hspec.seen_iff x).mpr (Or.inl (List.mem_cons_of_mem _ hx))
        have := unseenCount_mono nodes hsub
        simp only
        omega

/-- A larger depth budget does not change the result of a call. -/
theorem visitAll_succ (m : Graph) : ∀ (d : Nat) (items : List String) (st st' : VisitState),
    visitAll m d items st = some st' → visitAll m (d + 1) items st = some st' := by
  intro d
  induction d with
  | zero => intro items st st' h; simp [visitAll] at h
  | succ d ihd =>
    intro items
    induction items with
    | nil => intro st st' h; rw [visitAll_nil] at h ⊢; exact h
    | cons item rest ihr =>
      intro st st' h
      by_cases hs : item ∈ st.seen
      · rw [visitAll_cons_seen m _ item rest st hs] at h ⊢
        exact ihr st st' h
      · rw [visitAll_cons_fresh m _ item rest st hs] at h ⊢
        cases hv : visitAll m d (prereqsOf m item) { st with seen := item :: st.seen } with
        | none => rw [hv] at h; cases h
        | some s1 =>
          rw [hv] at h
          rw [ihd _ _ _ hv]
          exact ihr _ _ h

theorem visitAll_mono (m : Graph) {d d' : Nat} (hd : d ≤ d') {items : List String}
    {st st' : VisitState} (h : visitAll m d items st = some st') :
    visitAll m d' items st = some st' := by
  induction hd with
  | refl => exact h
  | step _ ih => exact visitAll_succ m _ _ _ _ ih

/-! ## The top-level call -/

/-- The call `visitAll(keys)` made by `topoSort` returns, and what it returns. -/
theorem visitAll_keys (m : Graph) (keys : List String) :
    ∃ st', visitAll m (depthBudget m keys) keys initState = some st' ∧
      VisitSpec m keys initState st' st'.order := by
  obtain ⟨st', hst⟩ := visitAll_total m (keys ++ listed m)
    (fun x p hp => List.mem_append_right _ (prereqsOf_listed hp))
    (depthBudget m keys) keys initState
    (fun x hx => List.mem_append_left _ hx)
    (by
      have := unseenCount_le_length (keys ++ listed m) initState.seen
      simp only [List.length_append] at this
      unfold depthBudget
      omega)
  obtain ⟨new, hspec⟩ := visitAll_spec m _ _ _ _ hst
  have hnew : st'.order = new := by
    have := hspec.order_eq
    simpa [initState] using this
  rw [← hnew] at hspec
  exact ⟨st', hst, hspec⟩

theorem topoSortEnum_spec (m : Graph) (enum : List String) :
    ∃ st', topoSortEnum m enum = some st'.order ∧
      VisitSpec m (sortStrings enum) initState st' st'.order := by
  obtain ⟨st', hst, hspec⟩ := visitAll_keys m (sortStrings enum)
  refine ⟨st', ?_, hspec⟩
  simp only [topoSortEnum, collectKeys_eq, hst, Option.map_some']

theorem topoSort_spec (m : Graph) :
    ∃ st', topoSort m = some st'.order ∧
      VisitSpec m (sortStrings (keysOf m)) initState st' st'.order :=
  topoSortEnum_spec m (keysOf m)

/-! ## Consequences of `VisitSpec` for a call started from the empty state -/

theorem spec_mem_seen {m : Graph} {items : List String} {st' : VisitState}
    (h : VisitSpec m items initState st' st'.order) (x : String) :
    x ∈ st'.seen ↔ x ∈ st'.order := by
  rw [h.seen_iff]
  simp [initState]

/-- The visited nodes are closed under taking prerequisites. -/
theorem spec_reach_mem {m : Graph} {items : List String} {st' : VisitState}
    (h : VisitSpec m items initState st' st'.order) {x y : String}
    (hx : x ∈ st'.order) (hr : Reach m x y) : y ∈ st'.order := by
  induction hr with
  | refl => exact hx
  | tail _ hedge ih => exact (spec_mem_seen h _).mp (h.closed _ ih _ hedge)

/-- A measure that strictly decreases along every stored edge rules out
cycles. -/
theorem acyclic_of_rank (m : Graph) (rank : String → Nat)
    (h : ∀ e ∈ m, ∀ p ∈ e.2, rank p < rank e.1) : Acyclic m := by
  have hedge : ∀ n p, Edge m n p → rank p < rank n := by
    intro n p hp
    obtain ⟨ps, hmem, hps⟩ := edge_mem hp
    exact h (n, ps) hmem p hps
  have htrans : ∀ n p, Relation.TransGen (Edge m) n p → rank p < rank n := by
    intro n p hnp
    induction hnp with
    | single hs => exact hedge _ _ hs
    | tail _ hs ih => exact lt_trans (hedge _ _ hs) ih
  intro n hn
  exact lt_irrefl _ (htrans n n hn)

/-- In an acyclic graph the order built from the empty state respects every
edge. -/
theorem spec_respects {m : Graph} {items : List String} {st' : VisitState}
    (h : VisitSpec m items initState st' st'.order) (hacyc : Acyclic m) :
    RespectsEdges m st'.order := by
  intro j n hj p hp
  have hn : n ∈ st'.order := List.mem_iff_getElem?.mpr ⟨j, hj⟩
  have hpmem : p ∈ st'.order := (spec_mem_seen h p).mp (h.closed n hn p hp)
  obtain ⟨i, hi⟩ := List.mem_iff_getElem?.mp hpmem
  obtain ⟨hjlt, hjn⟩ := List.getElem?_eq_some.mp hj
  obtain ⟨hilt, hip⟩ := List.getElem?_eq_some.mp hi
  rcases Nat.lt_trichotomy i j with hlt | heq | hgt
  · exact ⟨i, hlt, hi⟩
  · exfalso
    subst heq
    rw [hjn] at hip
    subst hip
    exact hacyc n (Relation.TransGen.single hp)
  · exfalso
    have hback := List.pairwise_iff_getElem.mp h.back j i hjlt hilt hgt
    rw [hjn, hip] at hback
    exact hacyc n (Relation.TransGen.head' hp (hback hp))

/-- An order that respects every edge contains no node lying on a cycle. -/
theorem respects_no_cycle {m : Graph} {order : List String} (h : RespectsEdges m order)
    {n : String} (hcyc : Relation.TransGen (Edge m) n n) : n ∉ order := by
  have hstep : ∀ x y, Relation.TransGen (Edge m) x y →
      ∀ j, order[j]? = some x → OccursBefore order y j := by
    intro x y hxy
    induction hxy with
    | single hs => intro j hj; exact h j x hj _ hs
    | tail _ hs ih =>
      intro j hj
      obtain ⟨i, hij, hi⟩ := ih j hj
      obtain ⟨i', hi'i, hi'⟩ := h i _ hi _ hs
      exact ⟨i', lt_trans hi'i hij, hi'⟩
  have hnone : ∀ j : Nat, order[j]? ≠ some n := by
    intro j
    induction j using Nat.strong_induction_on with
    | _ j ih =>
      intro hj
      obtain ⟨i, hij, hi⟩ := hstep n n hcyc j hj
      exact ih i hij hi
  intro hmem
  obtain ⟨j, hj⟩ := List.mem_iff_getElem?.mp hmem
  exact hnone j hj

/-! ## The printing loop -/

theorem emitFrom_append (order : List String) :
    ∀ (i : Nat) (out : List String), emitFrom i order out = out ++ emitFrom i order [] := by
  induction order with
  | nil => intro i out; simp [emitFrom]
  | cons c rest ih =>
    intro i out
    simp only [emitFrom]
    rw [ih (i + 1) (out ++ [printfLine i c]), ih (i + 1) ([] ++ [printfLine i c])]
    simp

theorem emitFrom_getElem? (order : List String) :
    ∀ (i k : Nat), (emitFrom i order [])[k]? = (order[k]?).map (printfLine (i + k)) := by
  induction order with
  | nil => intro i k; simp [emitFrom]
  | cons c rest ih =>
    intro i k
    simp only [emitFrom]
    rw [emitFrom_append]
    cases k with
    | zero => simp
    | succ k =>
      simp only [List.nil_append, List.singleton_append, List.getElem?_cons_succ]
      rw [ih (i + 1) k]
      have hik : i + 1 + k = i + (k + 1) := by omega
      rw [hik]

theorem emitFrom_length (order : List String) :
    ∀ (i : Nat), (emitFrom i order []).length = order.length := by
  induction order with
  | nil => intro i; simp [emitFrom]
  | cons c rest ih =>
    intro i
    simp only [emitFrom]
    rw [emitFrom_append, List.length_append, ih (i + 1)]
    simp [Nat.add_comm]

/-! ## Facts about the concrete graphs -/

theorem cycleAB_cyclic : HasReachableCycle cycleAB := by
  have hab : Edge cycleAB "a" "b" := by unfold Edge; decide
  have hba : Edge cycleAB "b" "a" := by unfold Edge; decide
  exact ⟨"a", ⟨"a", by decide, Relation.ReflTransGen.refl⟩,
    Relation.TransGen.tail (Relation.TransGen.single hab) hba⟩

theorem prereqs_acyclic : Acyclic prereqs :=
  acyclic_of_rank prereqs
    (fun x => List.indexOf x
      ["intro to programming", "discrete math", "data structures", "algorithms",
       "linear algebra", "calculus", "formal languages", "computer organization",
       "compiler", "database", "operating systems", "network", "programming languages"])
    (by decide)

/-! ## The claims -/

/-- C1: for every acyclic graph `m`, `topoSort(m)` returns an order that
respects every edge: whenever node `n` stands at position `j` and `p` is in
`m[n]`, `p` stands at some position `i < j`. -/
theorem topoSort_respects_edges (m : Graph) (hacyc : Acyclic m) :
    ∃ order, topoSort m = some order ∧
      ∀ (j : Nat) (n : String), order[j]? = some n →
        ∀ p ∈ prereqsOf m n, ∃ i : Nat, i < j ∧ order[i]? = some p := by
  obtain ⟨st', hres, hspec⟩ := topoSort_spec m
  exact ⟨st'.order, hres, spec_respects hspec hacyc⟩

/-- C1 at the package variable `prereqs`, which is acyclic. -/
theorem topoSort_respects_edges_witness :
    Acyclic prereqs ∧ ∃ order, topoSort prereqs = some order ∧
      ∀ (j : Nat) (n : String), order[j]? = some n →
        ∀ p ∈ prereqsOf prereqs n, ∃ i : Nat, i < j ∧ order[i]? = some p :=
  ⟨prereqs_acyclic, topoSort_respects_edges prereqs prereqs_acyclic⟩

/-- C2: for every graph `m`, the nodes occurring in `topoSort(m)` are exactly
the nodes reachable through zero or more prerequisite edges from a key of
`m`, whether or not they are keys themselves. -/
theorem topoSort_mem_iff_reachable (m : Graph) :
    ∃ order, topoSort m = some order ∧
      ∀ x, x ∈ order ↔ ∃ k ∈ keysOf m, Relation.ReflTransGen (Edge m) k x := by
  obtain ⟨st', hres, hspec⟩ := topoSort_spec m
  refine ⟨st'.order, hres, fun x => ⟨?_, ?_⟩⟩
  · intro hx
    obtain ⟨k, hk, hr⟩ := hspec.reach x hx
    exact ⟨k, mem_sortStrings.mp hk, hr⟩
  · rintro ⟨k, hk, hr⟩
    have hkm : k ∈ st'.order :=
      (spec_mem_seen hspec k).mp (hspec.items_seen k (mem_sortStrings.mpr hk))
    exact spec_reach_mem hspec hkm hr

/-- C3: for every graph `m`, with or without repeated or shared
prerequisites, `topoSort(m)` contains no node twice. -/
theorem topoSort_nodup (m : Graph) :
    ∃ order, topoSort m = some order ∧ order.Nodup := by
  obtain ⟨st', hres, hspec⟩ := topoSort_spec m
  exact ⟨st'.order, hres, hspec.nodup⟩

/-- C4, refuted as stated: the graph `{"a": ["b"], "b": ["a"]}` has a cycle
among the nodes reachable from its keys, and `topoSort` returns the list
`["b", "a"]` for it instead of failing. -/
theorem topoSort_cycleAB_returns_order :
    HasReachableCycle cycleAB ∧ topoSort cycleAB = some ["b", "a"] :=
  ⟨cycleAB_cyclic, by decide⟩

/-- C4, amended: for every graph with a cycle among the nodes reachable from
its keys, `topoSort` reports no error and returns an order, and that order
does not respect every edge; for `{"a": ["b"], "b": ["a"]}` it is
`["b", "a"]`. -/
theorem topoSort_cyclic_returns_unsound_order (m : Graph) (hcyc : HasReachableCycle m) :
    (∃ order, topoSort m = some order ∧ ¬ RespectsEdges m order) ∧
      topoSort cycleAB = some ["b", "a"] := by
  refine ⟨?_, by decide⟩
  obtain ⟨st', hres, hspec⟩ := topoSort_spec m
  refine ⟨st'.order, hres, fun hresp => ?_⟩
  obtain ⟨n, ⟨k, hk, hr⟩, hloop⟩ := hcyc
  have hkm : k ∈ st'.order :=
    (spec_mem_seen hspec k).mp (hspec.items_seen k (mem_sortStrings.mpr hk))
  exact respects_no_cycle hresp hloop (spec_reach_mem hspec hkm hr)

/-- C4 amended, at the two-node cycle. -/
theorem topoSort_cyclic_returns_unsound_order_witness :
    HasReachableCycle cycleAB ∧
      ((∃ order, topoSort cycleAB = some order ∧ ¬ RespectsEdges cycleAB order) ∧
        topoSort cycleAB = some ["b", "a"]) :=
  ⟨cycleAB_cyclic, topoSort_cyclic_returns_unsound_order cycleAB cycleAB_cyclic⟩

/-- C5: for every graph `m`, cyclic or not, `topoSort(m)` terminates: the
top-level call `visitAll(keys)` returns one and the same state for every
call-depth budget from `depthBudget` upwards, and `topoSort` returns the
order of that state. -/
theorem topoSort_terminates (m : Graph) :
    ∃ st, (∀ d, depthBudget m (sortStrings (keysOf m)) ≤ d →
        visitAll m d (sortStrings (keysOf m)) initState = some st) ∧
      topoSort m = some st.order := by
  obtain ⟨st', hst, _⟩ := visitAll_keys m (sortStrings (keysOf m))
  refine ⟨st', fun d hd => visitAll_mono m hd hst, ?_⟩
  simp only [topoSort, topoSortEnum, collectKeys_eq, hst, Option.map_some']

/-- C6: the result of `topoSort` does not depend on the order in which the
map enumerates its keys: any two enumerations of the keys of `m` lead to the
same returned order. -/
theorem topoSort_enumeration_independent (m : Graph) (e1 e2 : List String)
    (h1 : e1.Perm (keysOf m)) (h2 : e2.Perm (keysOf m)) :
    topoSortEnum m e1 = topoSortEnum m e2 ∧ ∃ order, topoSortEnum m e1 = some order := by
  constructor
  · simp only [topoSortEnum, collectKeys_eq]
    rw [sortStrings_eq_of_perm (h1.trans h2.symm)]
  · obtain ⟨st', hres, _⟩ := topoSortEnum_spec m e1
    exact ⟨st'.order, hres⟩

/-- C6 at the package variable `prereqs`, enumerated forwards and backwards. -/
theorem topoSort_enumeration_independent_witness :
    topoSortEnum prereqs (keysOf prereqs) = topoSortEnum prereqs (keysOf prereqs).reverse ∧
      ∃ order, topoSortEnum prereqs (keysOf prereqs) = some order :=
  topoSort_enumeration_independent prereqs (keysOf prereqs) (keysOf prereqs).reverse
    (List.Perm.refl _) (List.reverse_perm _)

/-- C7: on the scenario graph `topoSort` returns exactly
`intro to programming, discrete math, data structures, algorithms,
linear algebra, calculus`. -/
theorem topoSort_scenario :
    topoSort scenario =
      some ["intro to programming", "discrete math", "data structures", "algorithms",
        "linear algebra", "calculus"] := by
  decide

/-- C8: `topoSort` of the empty map returns the empty order. -/
theorem topoSort_empty : topoSort [] = some [] := by
  decide

/-- C9, refuted as stated: for the order `["a"]` the printing loop writes
`1`, a colon, a TAB, `a` and a newline, which is not `1`, a TAB and `a`,
with or without the newline. -/
theorem emit_line_has_colon :
    emit ["a"] = ["1:\ta\n"] ∧ emit ["a"] ≠ ["1\ta\n"] ∧ emit ["a"] ≠ ["1\ta"] := by
  decide

/-- C9, amended: for every order the printing loop of `main` writes one line
per element, in sequence, and the line for the element at 0-based position
`k` is the decimal index `k + 1`, a colon, a TAB, the item name and a
newline. -/
theorem emit_lines (order : List String) :
    (emit order).length = order.length ∧
      ∀ k : Nat, (emit order)[k]? =
        (order[k]?).map (fun name => toString (k + 1) ++ ":\t" ++ name ++ "\n") := by
  refine ⟨emitFrom_length order 0, fun k => ?_⟩
  unfold emit
  rw [emitFrom_getElem?, Nat.zero_add]
  rfl

/-- C10: when `k` is the least key of `m`, the order returned by
`topoSort(m)` starts with a duplicate-free block `pre` made of exactly the
nodes reachable from `k`, with `k` as its last element at position
`pre.length - 1`, and every node after that block is not reachable from
`k`. -/
theorem topoSort_first_branch (m : Graph) (k : String) (hk : k ∈ keysOf m)
    (hmin : ∀ k' ∈ keysOf m, strLE k k') :
    ∃ pre rest, topoSort m = some (pre ++ rest) ∧ pre.Nodup ∧
      (∀ x, x ∈ pre ↔ Relation.ReflTransGen (Edge m) k x) ∧
      pre.getLast? = some k ∧ (pre ++ rest)[pre.length - 1]? = some k ∧
      ∀ x ∈ rest, ¬ Relation.ReflTransGen (Edge m) k x := by
  obtain ⟨rk, hsort⟩ := sortStrings_head hk hmin
  obtain ⟨st', hst, _⟩ := visitAll_keys m (sortStrings (keysOf m))
  have hres : topoSort m = some st'.order := by
    simp only [topoSort, topoSortEnum, collectKeys_eq, hst, Option.map_some']
  rw [hsort] at hst
  have hfresh : k ∉ initState.seen := by simp [initState]
  have hbudget : depthBudget m (k :: rk) = (rk.length + (listed m).length + 1) + 1 := by
    simp only [depthBudget, List.length_cons]
    omega
  rw [hbudget, visitAll_cons_fresh m _ k rk initState hfresh] at hst
  cases hv : visitAll m (rk.length + (listed m).length + 1) (prereqsOf m k)
      { initState with seen := k :: initState.seen } with
  | none => rw [hv] at hst; cases hst
  | some s1 =>
    rw [hv] at hst
    obtain ⟨new1, h1⟩ := visitAll_spec m _ _ _ _ hv
    obtain ⟨new2, h2⟩ := visitAll_spec m _ _ _ _ hst
    have ho1 : s1.order = new1 := by
      have := h1.order_eq
      simpa [initState] using this
    have hseen1 : ∀ x, x ∈ s1.seen ↔ x = k ∨ x ∈ new1 := by
      intro x
      rw [h1.seen_iff]
      simp [initState]
    have hpre : ∀ x, x ∈ new1 ++ [k] ↔ x ∈ s1.seen := by
      intro x
      rw [hseen1]
      simp only [List.mem_append, List.mem_singleton]
      tauto
    have ho2 : st'.order = (new1 ++ [k]) ++ new2 := by
      rw [h2.order_eq, ho1]
    refine ⟨new1 ++ [k], new2, by rw [hres, ho2], ?_, ?_, ?_, ?_, ?_⟩
    · rw [List.nodup_append]
      refine ⟨h1.nodup, List.nodup_singleton k, ?_⟩
      intro x hx1 hx2
      rw [List.mem_singleton] at hx2
      subst hx2
      exact h1.fresh x hx1 (List.mem_cons_self _ _)
    · intro x
      constructor
      · intro hx
        rcases List.mem_append.mp hx with hx | hx
        · obtain ⟨i, hi, hr⟩ := h1.reach x hx
          exact Relation.ReflTransGen.head hi hr
        · rw [List.mem_singleton] at hx
          subst hx
          exact Relation.ReflTransGen.refl
      · intro hr
        induction hr with
        | refl => simp
        | tail _ hedge ih =>
          rw [hpre]
          rcases List.mem_append.mp ih with hy | hy
          · exact h1.closed _ hy _ hedge
          · rw [List.mem_singleton] at hy
            subst hy
            exact h1.items_seen _ hedge
    · simp
    · have hlen : (new1 ++ [k]).length - 1 = new1.length := by simp
      rw [hlen, List.append_assoc, List.getElem?_append_right (le_refl _)]
      simp
    · intro x hx hr
      have hxpre : x ∈ new1 ++ [k] := by
        clear hx
        induction hr with
        | refl => simp
        | tail _ hedge ih =>
          rw [hpre]
          rcases List.mem_append.mp ih with hy | hy
          · exact h1.closed _ hy _ hedge
          · rw [List.mem_singleton] at hy
            subst hy
            exact h1.items_seen _ hedge
      exact h2.fresh x hx ((hpre x).mp hxpre)

/-- C10 at the package variable `prereqs`, whose least key is `algorithms`. -/
theorem topoSort_first_branch_witness :
    ("algorithms" ∈ keysOf prereqs ∧ ∀ k' ∈ keysOf prereqs, strLE "algorithms" k') ∧
      ∃ pre rest, topoSort prereqs = some (pre ++ rest) ∧ pre.Nodup ∧
        (∀ x, x ∈ pre ↔ Relation.ReflTransGen (Edge prereqs) "algorithms" x) ∧
        pre.getLast? = some "algorithms" ∧
        (pre ++ rest)[pre.length - 1]? = some "algorithms" ∧
        ∀ x ∈ rest, ¬ Relation.ReflTransGen (Edge prereqs) "algorithms" x :=
  ⟨⟨by decide, by decide⟩,
    topoSort_first_branch prereqs "algorithms" (by decide) (by decide)⟩

end Toposort
